import Mathlib

/-!
Verification development for the maltmill Homebrew-formula updater.

The Go source is shallowly embedded: strings are `List Char` / `String`,
the five `regexp` patterns of the source are compiled by hand into a small
item-list regular-expression matcher with Go's leftmost-first, greedy,
backtracking submatch semantics (`(?m)` multiline anchors, `\s` classes,
`.` excluding newline, capture groups), and `ReplaceAllString` /
`ReplaceAllStringFunc` are modelled with Go's non-overlapping left-to-right
replacement loop, including `$`-template expansion of the replacement text.
All recursion is fuel-based with provably sufficient fuel so that every
definition evaluates inside the kernel.
-/

namespace Maltmill

/-- One compiled regular-expression item.  A Go pattern such as
`(?m)(^\s+version\s*['"])(.*)(["'])` is compiled into a list of items:
character classes, greedy Kleene stars over a character class, capture-group
open/close markers, and the two anchors (multiline `^` and text-start `^`). -/
inductive RItem where
  /-- a single character matching the predicate -/
  | cls (p : Char → Bool)
  /-- greedy star over a single-character predicate -/
  | star (p : Char → Bool)
  /-- capture group `n` opens here -/
  | openG (n : Nat)
  /-- capture group `n` closes here -/
  | closeG (n : Nat)
  /-- `(?m)` multiline `^`: start of text or right after a newline -/
  | bol
  /-- `^` without `(?m)`: start of text -/
  | bot

/-- Capture state: `(group number, start position, end position)`. -/
abbrev Caps := List (Nat × Nat × Nat)

/-- Record that group `n` closes at position `pos`. -/
def capsClose (n pos : Nat) (caps : Caps) : Caps :=
  caps.map (fun g => if g.1 = n then (g.1, g.2.1, pos) else g)

/-- Length of the maximal run of characters satisfying `p` at the head. -/
def countRun (p : Char → Bool) : List Char → Nat
  | [] => 0
  | c :: cs => if p c then countRun p cs + 1 else 0

/-- The character just before offset `j` of `rem`, given that `prev` is the
character just before `rem` itself (`none` at the start of the text). -/
def prevAt (rem : List Char) (prev : Option Char) : Nat → Option Char
  | 0 => prev
  | j + 1 => rem[j]?

/-- Backtracking matcher.  `rem` is the remaining input, `prev` the character
right before it, `pos` its absolute position.  Greedy stars try the longest
run first, so a successful match is exactly the one Go's leftmost-first
(Perl-style) submatch semantics produces at this position.  The fuel only
bounds the item-list recursion depth; `items.length + 1` always suffices. -/
def matchItemsL : Nat → List RItem → List Char → Option Char → Nat → Caps →
    Option (Nat × Caps)
  | 0, _, _, _, _, _ => none
  | _ + 1, [], _, _, pos, caps => some (pos, caps)
  | fuel + 1, .cls p :: rest, rem, _, pos, caps =>
    match rem with
    | [] => none
    | c :: rs => if p c then matchItemsL fuel rest rs (some c) (pos + 1) caps else none
  | fuel + 1, .star p :: rest, rem, prev, pos, caps =>
    (List.range (countRun p rem + 1)).reverse.findSome? fun j =>
      matchItemsL fuel rest (rem.drop j) (prevAt rem prev j) (pos + j) caps
  | fuel + 1, .openG n :: rest, rem, prev, pos, caps =>
    matchItemsL fuel rest rem prev pos ((n, pos, pos) :: caps)
  | fuel + 1, .closeG n :: rest, rem, prev, pos, caps =>
    matchItemsL fuel rest rem prev pos (capsClose n pos caps)
  | fuel + 1, .bol :: rest, rem, prev, pos, caps =>
    if prev = none ∨ prev = some '\n' then matchItemsL fuel rest rem prev pos caps else none
  | fuel + 1, .bot :: rest, rem, prev, pos, caps =>
    if pos = 0 then matchItemsL fuel rest rem prev pos caps else none

/-- Try a match exactly at the current position. -/
def matchAtL (items : List RItem) (rem : List Char) (prev : Option Char) (pos : Nat) :
    Option (Nat × Caps) :=
  matchItemsL (items.length + 1) items rem prev pos []

/-- Scan forward for the leftmost match, Go's `FindStringSubmatchIndex`
search: try each start position in order, first success wins.  Returns
`(start, end, captures)` with absolute positions. -/
def findFromL (items : List RItem) : List Char → Option Char → Nat →
    Option (Nat × Nat × Caps)
  | rem, prev, pos =>
    match matchAtL items rem prev pos with
    | some (e, caps) => some (pos, e, caps)
    | none =>
      match rem with
      | [] => none
      | c :: rs => findFromL items rs (some c) (pos + 1)

/-- Leftmost match of `items` in the whole text. -/
def findFirstL (items : List RItem) (full : List Char) : Option (Nat × Nat × Caps) :=
  findFromL items full none 0

/-- The slice `[a, b)` of a character list. -/
def sliceL (full : List Char) (a b : Nat) : List Char :=
  (full.take b).drop a

/-- The character just before absolute position `pos` of `full`. -/
def charBefore (full : List Char) (pos : Nat) : Option Char :=
  if pos = 0 then none else full[pos - 1]?

/-- Text of capture group `n` (empty when the group did not participate),
as Go's submatch slices. -/
def grpL (full : List Char) (caps : Caps) (n : Nat) : List Char :=
  match caps.find? (fun g => g.1 = n) with
  | some g => sliceL full g.2.1 g.2.2
  | none => []

/-- Is `c` a letter, digit or underscore (a Go replacement-template name
character)? -/
def isNameChar (c : Char) : Bool :=
  ('0' ≤ c && c ≤ '9') || ('a' ≤ c && c ≤ 'z') || ('A' ≤ c && c ≤ 'Z') || c = '_'

/-- Is the string a non-empty run of decimal digits? -/
def allDigits (cs : List Char) : Bool :=
  !cs.isEmpty && cs.all (fun c => '0' ≤ c && c ≤ '9')

/-- Decimal value of a digit string. -/
def digitsVal (cs : List Char) : Nat :=
  cs.foldl (fun acc c => acc * 10 + (c.toNat - '0'.toNat)) 0

/-- Value of a `$name` reference in a Go replacement template: if the name is
all digits it refers to that capture group, otherwise (our patterns have no
named groups) it expands to the empty string. -/
def dollarRef (full : List Char) (caps : Caps) (name : List Char) : List Char :=
  if allDigits name then grpL full caps (digitsVal name) else []

/-- Go's `Regexp.expand` on a replacement template: `$$` is a literal `$`,
`${name}` and `$name` (longest name-character run) are capture references,
a `$` that starts no valid reference is kept literally. -/
def expandTmplGo (full : List Char) (caps : Caps) : Nat → List Char → List Char
  | 0, rest => rest
  | _ + 1, [] => []
  | fuel + 1, c :: rest =>
    if c = '$' then
      match rest with
      | [] => ['$']
      | d :: rs =>
        if d = '$' then '$' :: expandTmplGo full caps fuel rs
        else if d = Char.ofNat 123 then
          -- a ${name} reference
          let name := rs.takeWhile (fun x => x ≠ Char.ofNat 125)
          match rs.drop name.length with
          | _ :: rs3 => dollarRef full caps name ++ expandTmplGo full caps fuel rs3
          | [] => '$' :: d :: expandTmplGo full caps fuel rs
        else if isNameChar d then
          let name := (d :: rs).takeWhile isNameChar
          dollarRef full caps name ++ expandTmplGo full caps fuel ((d :: rs).drop name.length)
        else '$' :: d :: expandTmplGo full caps fuel rs
    else c :: expandTmplGo full caps fuel rest

/-- Entry point for `expandTmplGo` with sufficient fuel. -/
def expandTmpl (full : List Char) (caps : Caps) (tmpl : List Char) : List Char :=
  expandTmplGo full caps (tmpl.length + 1) tmpl

/-- Go's non-overlapping left-to-right replacement loop shared by
`ReplaceAllString` and `ReplaceAllStringFunc`.  `f` maps a state and the
match `(start, end, captures)` to the replacement text and the next state;
an empty match additionally copies one character before the scan resumes.
Fuel `full.length + 1` always suffices; on exhaustion the rest is copied. -/
def replaceAllCore (items : List RItem) (full : List Char)
    (f : α → Nat → Nat → Caps → (List Char × α)) : Nat → Nat → α → List Char
  | 0, pos, _ => full.drop pos
  | fuel + 1, pos, st =>
    match findFromL items (full.drop pos) (charBefore full pos) pos with
    | none => full.drop pos
    | some (s, e, caps) =>
      let r := f st s e caps
      sliceL full pos s ++ r.1 ++
        (if s < e then replaceAllCore items full f fuel e r.2
         else
           match full.drop e with
           | [] => []
           | c :: _ => c :: replaceAllCore items full f fuel (e + 1) r.2)

/-- Go `Regexp.ReplaceAllString`: every match is replaced by the
`$`-expanded template `tmpl`. -/
def goReplaceAllString (items : List RItem) (s tmpl : String) : String :=
  ⟨replaceAllCore items s.data
    (fun _ _a _b caps => (expandTmpl s.data caps tmpl.data, ()))
    (s.data.length + 1) 0 ()⟩

/-- `replaceOne` of the source: `ReplaceAllStringFunc` with a `replaced`
flag, so only the first match is rewritten — by re-running
`ReplaceAllString` with template `replace` on the matched text — and every
later match is returned unchanged.

```go
func replaceOne(reg *regexp.Regexp, str, replace string) string {
	replaced := false
	return reg.ReplaceAllStringFunc(str, func(match string) string {
		if replaced { return match }
		replaced = true
		return reg.ReplaceAllString(match, replace)
	})
}
``` -/
def replaceOneF (items : List RItem) (str replace : String) :
    Bool → Nat → Nat → Caps → (List Char × Bool)
  | true, a, b, _ => (sliceL str.data a b, true)
  | false, a, b, _ => ((goReplaceAllString items ⟨sliceL str.data a b⟩ replace).data, true)

/-- Entry point: run the replacement loop with the `replaced` flag down. -/
def replaceOne (items : List RItem) (str replace : String) : String :=
  ⟨replaceAllCore items str.data (replaceOneF items str replace) (str.data.length + 1) 0 false⟩

/-- Number of non-overlapping matches of `items` in `full` (Go's
`FindAllString` count). -/
def countMatches (items : List RItem) (full : List Char) : Nat :=
  go (full.length + 1) 0
where
  go : Nat → Nat → Nat
    | 0, _ => 0
    | fuel + 1, pos =>
      match findFromL items (full.drop pos) (charBefore full pos) pos with
      | none => 0
      | some (s, e, _) => go fuel (if s < e then e else e + 1) + 1

/-- Number of start positions at which `pat` occurs in `s`. -/
def countSubstr (s pat : List Char) : Nat :=
  ((List.range (s.length + 1)).filter (fun i => pat.isPrefixOf (s.drop i))).length

/-- Go `strings.Contains`. -/
def strContains (s sub : String) : Bool :=
  (List.range (s.data.length + 1)).any (fun i => sub.data.isPrefixOf (s.data.drop i))

/-- Go `strings.HasSuffix`. -/
def goHasSuffix (s suf : String) : Bool :=
  suf.data.isSuffixOf s.data

/-! ## The five compiled patterns of the source

```go
nameReg = regexp.MustCompile(`(?m)^\s+name\s*=\s*['"](.*)["']`)
verReg  = regexp.MustCompile(`(?m)(^\s+version\s*['"])(.*)(["'])`)
urlReg  = regexp.MustCompile(`(?m)(^\s+url\s*['"])(.*)(["'])`)
shaReg  = regexp.MustCompile(`(?m)(\s+sha256\s*['"])(.*)(["'])`)
parseURLReg = regexp.MustCompile(`^https://[^/]*github.com/([^/]+)/([^/]+)`)
```
-/

/-- Go regex `\s`: `[\t\n\f\r ]`. -/
def spaceP (c : Char) : Bool :=
  c = ' ' || c = '\t' || c = '\n' || c = Char.ofNat 12 || c = '\r'

/-- Go regex `.` (without `(?s)`): any character except newline. -/
def dotP (c : Char) : Bool :=
  c ≠ '\n'

/-- The character class `['"]` / `["']`. -/
def quoteP (c : Char) : Bool :=
  c = '"' || c = Char.ofNat 39

/-- The character class `[^/]`. -/
def notSlashP (c : Char) : Bool :=
  c ≠ '/'

/-- A literal character list, one class item per character. -/
def litsL (pat : List Char) : List RItem :=
  pat.map (fun c => .cls (fun x => x = c))

/-- A literal string, one class item per character. -/
def litsR (s : String) : List RItem :=
  litsL s.data

/-- `(?m)^\s+name\s*=\s*['"](.*)["']`. -/
def nameReg : List RItem :=
  [.bol, .cls spaceP, .star spaceP] ++ litsR "name" ++
  [.star spaceP, .cls (fun c => c = '='), .star spaceP, .cls quoteP,
   .openG 1, .star dotP, .closeG 1, .cls quoteP]

/-- `(?m)(^\s+version\s*['"])(.*)(["'])`. -/
def verReg : List RItem :=
  [.openG 1, .bol, .cls spaceP, .star spaceP] ++ litsR "version" ++
  [.star spaceP, .cls quoteP, .closeG 1,
   .openG 2, .star dotP, .closeG 2, .openG 3, .cls quoteP, .closeG 3]

/-- `(?m)(^\s+url\s*['"])(.*)(["'])`. -/
def urlReg : List RItem :=
  [.openG 1, .bol, .cls spaceP, .star spaceP] ++ litsR "url" ++
  [.star spaceP, .cls quoteP, .closeG 1,
   .openG 2, .star dotP, .closeG 2, .openG 3, .cls quoteP, .closeG 3]

/-- `(?m)(\s+sha256\s*['"])(.*)(["'])` — note: no `^` anchor. -/
def shaReg : List RItem :=
  [.openG 1, .cls spaceP, .star spaceP] ++ litsR "sha256" ++
  [.star spaceP, .cls quoteP, .closeG 1,
   .openG 2, .star dotP, .closeG 2, .openG 3, .cls quoteP, .closeG 3]

/-- `^https://[^/]*github.com/([^/]+)/([^/]+)` — the `.` of `github.com`
is the regex any-character. -/
def parseURLReg : List RItem :=
  [.bot] ++ litsR "https://" ++ [.star notSlashP] ++ litsR "github" ++
  [.cls dotP] ++ litsR "com" ++
  [.cls (fun c => c = '/'), .openG 1, .cls notSlashP, .star notSlashP, .closeG 1,
   .cls (fun c => c = '/'), .openG 2, .cls notSlashP, .star notSlashP, .closeG 2]

/-- Go `FindStringSubmatch`: leftmost match with capture texts; `some`
corresponds to a non-nil result (and for these patterns, to
`len(m) >= 4` resp. `len(m) >= 2/3`, since all groups always participate). -/
def findSubmatch (items : List RItem) (s : String) : Option (Nat × Nat × Caps) :=
  findFirstL items s.data

/-- Capture group `n` of a match of `s` as a `String`. -/
def grpStr (s : String) (m : Nat × Nat × Caps) (n : Nat) : String :=
  ⟨grpL s.data m.2.2 n⟩

/-! ## Masterminds/semver (v1): `NewVersion`, `Compare`, `LessThan` -/

/-- A parsed semantic version (`Masterminds/semver.Version`): numeric
major/minor/patch, prerelease and build-metadata strings. -/
structure SemVer where
  major : Nat
  minor : Nat
  patch : Nat
  pre : String
  metadata : String
deriving DecidableEq, Repr

/-- Decimal-digit character. -/
def isDigitC (c : Char) : Bool :=
  '0' ≤ c && c ≤ '9'

/-- Prerelease/metadata identifier character: `[0-9A-Za-z-]`. -/
def isIdentC (c : Char) : Bool :=
  isDigitC c || ('a' ≤ c && c ≤ 'z') || ('A' ≤ c && c ≤ 'Z') || c = '-'

/-- Split on a character (Go `strings.Split` for a one-character
separator): always at least one part, empty parts kept. -/
def splitOnC (sep : Char) (cs : List Char) : List (List Char) :=
  go (cs.length + 1) cs
where
  go : Nat → List Char → List (List Char)
    | 0, rest => [rest]
    | fuel + 1, l =>
      let part := l.takeWhile (fun c => c ≠ sep)
      match l.drop part.length with
      | _ :: rest => part :: go fuel rest
      | [] => [part]

/-- Does `cs` match `[0-9A-Za-z-]+(\.[0-9A-Za-z-]+)*` (the prerelease /
metadata grammar)? -/
def identsOK (cs : List Char) : Bool :=
  (splitOnC '.' cs).all (fun p => !p.isEmpty && p.all isIdentC)

/-- `semver.NewVersion`: an optional leading `v`, a numeric major part,
optional `.minor` and `.patch` numeric parts (defaulting to `0`), an
optional `-prerelease` and an optional `+metadata`, matched against the
whole string.  (Numeric parts are modelled as unbounded naturals; the Go
code parses them as `int64`.) -/
def parseSemVer (s : String) : Except String SemVer :=
  let cs0 := s.data
  let cs := if cs0.head? = some 'v' then cs0.tail else cs0
  let d1 := cs.takeWhile isDigitC
  if d1.isEmpty then .error "Invalid Semantic Version"
  else
    match parseNumDot (cs.drop d1.length) with
    | none => .error "Invalid Semantic Version"
    | some (minor, r2) =>
      match parseNumDot r2 with
      | none => .error "Invalid Semantic Version"
      | some (patch, r3) =>
        let preCs := if r3.head? = some '-' then some (r3.tail.takeWhile (fun c => c ≠ '+')) else none
        let r4 := match preCs with
          | some p => r3.drop (p.length + 1)
          | none => r3
        let metaCs := if r4.head? = some '+' then some r4.tail else none
        let r5 := match metaCs with
          | some _ => ([] : List Char)
          | none => r4
        if preCs.all identsOK && metaCs.all identsOK && r5.isEmpty then
          .ok { major := digitsVal d1, minor := minor, patch := patch,
                pre := ⟨preCs.getD []⟩, metadata := ⟨metaCs.getD []⟩ }
        else .error "Invalid Semantic Version"
where
  /-- Parse an optional `(\.\d+)` group; `none` means the overall regex
  cannot match. -/
  parseNumDot (l : List Char) : Option (Nat × List Char) :=
    if l.head? = some '.' then
      let d := l.tail.takeWhile isDigitC
      if d.isEmpty then none else some (digitsVal d, l.drop (d.length + 1))
    else some (0, l)

/-- Go string `<` (lexicographic byte order; for the ASCII data handled
here, codepoint order). -/
def goStrLt : List Char → List Char → Bool
  | [], [] => false
  | [], _ :: _ => true
  | _ :: _, [] => false
  | a :: as, b :: bs =>
    if a.toNat < b.toNat then true
    else if b.toNat < a.toNat then false
    else goStrLt as bs

/-- Does `cs` parse under `strconv.ParseInt` base 10 (an optional sign and
at least one digit)?  Overflow of `int64` is not modelled. -/
def parseIntOpt (cs : List Char) : Option Int :=
  match cs with
  | '-' :: ds => if allDigits ds then some (-(digitsVal ds : Int)) else none
  | '+' :: ds => if allDigits ds then some (digitsVal ds : Int) else none
  | ds => if allDigits ds then some (digitsVal ds : Int) else none

/-- `semver.comparePrePart`. -/
def comparePrePart (s o : List Char) : Int :=
  if s = o then 0
  else if s = [] then (if o ≠ [] then -1 else 1)
  else if o = [] then (if s ≠ [] then 1 else -1)
  else
    match parseIntOpt o, parseIntOpt s with
    | none, none => if goStrLt o s then 1 else -1
    | none, some _ => -1
    | some _, none => 1
    | some oi, some si => if si > oi then 1 else -1

/-- `semver.comparePrerelease`: dot-separated parts compared pairwise, the
shorter side padded with empty parts. -/
def comparePrerelease (v o : String) : Int :=
  let sparts := splitOnC '.' v.data
  let oparts := splitOnC '.' o.data
  go (max sparts.length oparts.length) sparts oparts
where
  go : Nat → List (List Char) → List (List Char) → Int
    | 0, _, _ => 0
    | n + 1, sp, op =>
      let d := comparePrePart (sp.headD []) (op.headD [])
      if d ≠ 0 then d else go n sp.tail op.tail

/-- `semver.Version.Compare`: major, minor, patch numerically, then
prerelease (an empty prerelease compares greater than any non-empty one). -/
def semverCompare (v o : SemVer) : Int :=
  if v.major ≠ o.major then (if v.major < o.major then -1 else 1)
  else if v.minor ≠ o.minor then (if v.minor < o.minor then -1 else 1)
  else if v.patch ≠ o.patch then (if v.patch < o.patch then -1 else 1)
  else if v.pre = "" ∧ o.pre = "" then 0
  else if v.pre = "" then 1
  else if o.pre = "" then -1
  else comparePrerelease v.pre o.pre

/-- `semver.Version.LessThan`. -/
def semverLessThan (v o : SemVer) : Bool :=
  semverCompare v o < 0

/-! ## Go `path.Base` and `path.Ext` -/

/-- Go `path.Base`: the last slash-separated element after stripping
trailing slashes; `"."` for the empty path, `"/"` for all-slash paths. -/
def pathBase (s : String) : String :=
  if s = "" then "."
  else
    let rev := s.data.reverse.dropWhile (fun c => c = '/')
    if rev.isEmpty then "/"
    else ⟨(rev.takeWhile (fun c => c ≠ '/')).reverse⟩

/-- Go `path.Ext`: the suffix of the final element starting at its last
dot, empty when the final element has no dot. -/
def pathExt (s : String) : String :=
  let rev := s.data.reverse
  let beforeDot := rev.takeWhile (fun c => c ≠ '/' && c ≠ '.')
  match rev.drop beforeDot.length with
  | c :: _ => if c = '.' then ⟨'.' :: beforeDot.reverse⟩ else ""
  | [] => ""

/-! ## The formula record and its operations -/

/-- The `formula` struct of the source. -/
structure Formula where
  fname : String
  content : String
  urlTmpl : String
  isURLTmpl : Bool
  name : String
  version : String
  url : String
  sha256 : String
  owner : String
  repo : String
deriving DecidableEq, Repr

/-- A fetched release: tag name and the `BrowserDownloadURL` of each asset,
in API order. -/
structure Release where
  tagName : String
  assets : List String
deriving DecidableEq, Repr

/-- `expandStr`: each key `k` of the map is compiled as the pattern
`#{k}` and every occurrence in `str` is replaced (`ReplaceAllString`) by
its value.  Go iterates the map in unspecified order; the model applies
the entries in list order (the two keys ever used, `name` and `version`,
are plain literals, so compilation cannot fail and the Go error return is
dead). -/
def expandStr (str : String) (m : List (String × String)) : String :=
  m.foldl (fun s kv => goReplaceAllString (litsR ("#\x7b" ++ kv.1 ++ "\x7d")) s kv.2) str

/-- `newFormula`, with the file read abstracted into the `content`
argument: extract the optional `name`, then the required `version`,
`sha256` and `url` first submatches (failing with the source's messages
when absent), classify the URL as a template iff it contains
`#{version}`, expand a template URL with the current name/version, and
derive owner and repo from the GitHub URL shape. -/
def newFormula (fname content : String) : Except String Formula :=
  let name := match findSubmatch nameReg content with
    | some m => grpStr content m 1
    | none => ""
  match findSubmatch verReg content with
  | none => .error "no version detected"
  | some mv =>
    let version := grpStr content mv 2
    match findSubmatch shaReg content with
    | none => .error "no sha256 detected"
    | some ms =>
      let sha := grpStr content ms 2
      match findSubmatch urlReg content with
      | none => .error "no url detected"
      | some mu =>
        let urlTmpl := grpStr content mu 2
        let isTmpl := strContains urlTmpl "#\x7bversion\x7d"
        let url := if isTmpl then expandStr urlTmpl [("name", name), ("version", version)]
                   else urlTmpl
        match findSubmatch parseURLReg url with
        | none => .error ("invalid url format: " ++ urlTmpl)
        | some mp =>
          .ok { fname := fname, content := content, urlTmpl := urlTmpl,
                isURLTmpl := isTmpl, name := name, version := version, url := url,
                sha256 := sha, owner := grpStr url mp 1, repo := grpStr url mp 2 }

/-- The asset filter of `update`'s non-template branch: the base filename
contains `amd64` and `darwin` and ends with the original URL's extension. -/
def assetMatches (ext u : String) : Bool :=
  let fname := pathBase u
  strContains fname "amd64" && strContains fname "darwin" && goHasSuffix fname ext

/-- The non-template URL computation of `update`: the first matching asset
in API order, or the `no assets found from latest release` error. -/
def findAssetURL (ext : String) (assets : List String) : Except String String :=
  match assets.find? (assetMatches ext) with
  | some u => .ok u
  | none => .error "no assets found from latest release"

/-- `fmt.Sprintf("%d.%d.%d", newVer.Major(), newVer.Minor(), newVer.Patch())`. -/
def normalizedVer (v : SemVer) : String :=
  Nat.repr v.major ++ "." ++ Nat.repr v.minor ++ "." ++ Nat.repr v.patch

/-- The replacement template `${1}%s${3}` instantiated with `v`. -/
def keepQuotesTmpl (v : String) : String :=
  "$\x7b1\x7d" ++ v ++ "$\x7b3\x7d"

/-- `updateContent`: patch the first `version` and `sha256` matches (and,
for a non-template URL, the first `url` match) of the content, each via
`replaceOne` with the `${1}value${3}` template. -/
def updateContent (fo : Formula) : Formula :=
  let c1 := replaceOne verReg fo.content (keepQuotesTmpl fo.version)
  let c2 := replaceOne shaReg c1 (keepQuotesTmpl fo.sha256)
  let c3 := if !fo.isURLTmpl then replaceOne urlReg c2 (keepQuotesTmpl fo.url) else c2
  { fo with content := c3 }

/-- `update`, with the two effects abstracted into arguments: `latest` is
the result of `GetLatestRelease` and `getSHA` the checksum-of-URL call.
The result is the (possibly mutated) formula, the `updated` flag and the
error (`none` on the two non-error returns).  Mirrors the source line by
line: parse the current version, fetch the latest release, parse its tag,
return `(false, nil)` when the current version is not less than the tag,
compute the normalized version string and the new URL (template expansion
or asset search), download the checksum, and only then mutate the fields
and patch the content. -/
def update (fo : Formula) (latest : Except String Release)
    (getSHA : String → Except String String) : Formula × Bool × Option String :=
  match parseSemVer fo.version with
  | .error e => (fo, false, some ("invalid original version: " ++ e))
  | .ok origVer =>
    match latest with
    | .error e => (fo, false, some ("update formula failed: " ++ fo.fname ++ ": " ++ e))
    | .ok rele =>
      match parseSemVer rele.tagName with
      | .error e =>
        (fo, false, some ("invalid original version. formula: " ++ fo.fname ++ ": " ++ e))
      | .ok newVer =>
        if !(semverLessThan origVer newVer) then (fo, false, none)
        else
          let newVerStr := normalizedVer newVer
          match (if fo.isURLTmpl then
                   .ok (expandStr fo.urlTmpl [("name", fo.name), ("version", newVerStr)])
                 else findAssetURL (pathExt fo.url) rele.assets) with
          | .error e => (fo, false, some e)
          | .ok newURL =>
            match getSHA newURL with
            | .error e => (fo, false, some ("faild to upload formula: " ++ fo.fname ++ ": " ++ e))
            | .ok newSHA =>
              let fo2 := updateContent
                { fo with version := newVerStr, url := newURL, sha256 := newSHA }
              (fo2, true, none)

/-! ## SHA-256 (`crypto/sha256`) and the checksum-of-URL utility -/

/-- Truncate to 32 bits. -/
def w32 (x : Nat) : Nat := x % 4294967296

/-- 32-bit rotate right. -/
def rotr32 (n x : Nat) : Nat := w32 ((x >>> n) ||| (x <<< (32 - n)))

/-- SHA-256 `Ch`. -/
def shaCh (e f g : Nat) : Nat := (e &&& f) ^^^ ((e ^^^ 4294967295) &&& g)

/-- SHA-256 `Maj`. -/
def shaMaj (a b c : Nat) : Nat := (a &&& b) ^^^ (a &&& c) ^^^ (b &&& c)

/-- SHA-256 Σ₀. -/
def bigSigma0 (a : Nat) : Nat := rotr32 2 a ^^^ rotr32 13 a ^^^ rotr32 22 a

/-- SHA-256 Σ₁. -/
def bigSigma1 (e : Nat) : Nat := rotr32 6 e ^^^ rotr32 11 e ^^^ rotr32 25 e

/-- SHA-256 σ₀. -/
def smallSigma0 (x : Nat) : Nat := rotr32 7 x ^^^ rotr32 18 x ^^^ (x >>> 3)

/-- SHA-256 σ₁. -/
def smallSigma1 (x : Nat) : Nat := rotr32 17 x ^^^ rotr32 19 x ^^^ (x >>> 10)

/-- The 64 SHA-256 round constants (FIPS 180-4, in decimal). -/
def shaK : List Nat :=
  [1116352408, 1899447441, 3049323471, 3921009573, 961987163,
   1508970993, 2453635748, 2870763221, 3624381080, 310598401,
   607225278, 1426881987, 1925078388, 2162078206, 2614888103,
   3248222580, 3835390401, 4022224774, 264347078, 604807628,
   770255983, 1249150122, 1555081692, 1996064986, 2554220882,
   2821834349, 2952996808, 3210313671, 3336571891, 3584528711,
   113926993, 338241895, 666307205, 773529912, 1294757372,
   1396182291, 1695183700, 1986661051, 2177026350, 2456956037,
   2730485921, 2820302411, 3259730800, 3345764771, 3516065817,
   3600352804, 4094571909, 275423344, 430227734, 506948616,
   659060556, 883997877, 958139571, 1322822218, 1537002063,
   1747873779, 1955562222, 2024104815, 2227730452, 2361852424,
   2428436474, 2756734187, 3204031479, 3329325298]

/-- The SHA-256 initial hash value (FIPS 180-4, in decimal). -/
def shaH0 : List Nat :=
  [1779033703, 3144134277, 1013904242, 2773480762,
   1359893119, 2600822924, 528734635, 1541459225]

/-- SHA-256 padding: `0x80`, zeros to 56 mod 64, the bit length as eight
big-endian bytes. -/
def padMsg (msg : List Nat) : List Nat :=
  let len := msg.length
  let padZeros := (64 - ((len + 9) % 64)) % 64
  msg ++ [0x80] ++ List.replicate padZeros 0 ++
    ((List.range 8).map fun i => ((len * 8) >>> (8 * (7 - i))) % 256)

/-- Big-endian 4-byte groups to 32-bit words. -/
def bytesToWords : List Nat → List Nat
  | a :: b :: c :: d :: rest =>
    (a * 16777216 + b * 65536 + c * 256 + d) :: bytesToWords rest
  | _ => []

/-- Extend the 16-word message schedule by `n` further words. -/
def extendSchedule : Nat → List Nat → List Nat
  | 0, ws => ws
  | n + 1, ws =>
    let t := ws.length
    let wt := w32 (smallSigma1 (ws.getD (t - 2) 0) + ws.getD (t - 7) 0 +
                   smallSigma0 (ws.getD (t - 15) 0) + ws.getD (t - 16) 0)
    extendSchedule n (ws ++ [wt])

/-- One SHA-256 round on the state `[a,b,c,d,e,f,g,h]`. -/
def shaRound (st : List Nat) (k w : Nat) : List Nat :=
  match st with
  | [a, b, c, d, e, f, g, h] =>
    let t1 := w32 (h + bigSigma1 e + shaCh e f g + k + w)
    let t2 := w32 (bigSigma0 a + shaMaj a b c)
    [w32 (t1 + t2), a, b, c, w32 (d + t1), e, f, g]
  | other => other

/-- Compress one 64-byte block into the hash state. -/
def processBlock (h : List Nat) (block : List Nat) : List Nat :=
  let ws := extendSchedule 48 (bytesToWords block)
  let st := (shaK.zip ws).foldl (fun st kw => shaRound st kw.1 kw.2) h
  (h.zip st).map fun p => w32 (p.1 + p.2)

/-- Split into chunks of `n` bytes (`n > 0`). -/
def chunksOf (n : Nat) (l : List Nat) : List (List Nat) :=
  go (l.length + 1) l
where
  go : Nat → List Nat → List (List Nat)
    | 0, _ => []
    | _ + 1, [] => []
    | fuel + 1, l => l.take n :: go fuel (l.drop n)

/-- SHA-256 digest (32 bytes) of a byte sequence. -/
def sha256Bytes (msg : List Nat) : List Nat :=
  let final := (chunksOf 64 (padMsg msg)).foldl processBlock shaH0
  final.foldr (fun w acc =>
    (w >>> 24) % 256 :: (w >>> 16) % 256 :: (w >>> 8) % 256 :: w % 256 :: acc) []

/-- Lowercase hex encoding of a byte sequence (Go `fmt.Sprintf("%x", …)`
on a byte slice). -/
def hexDigest (bytes : List Nat) : String :=
  ⟨bytes.foldr (fun b acc => hexC (b / 16) :: hexC (b % 16) :: acc) []⟩
where
  /-- One lowercase hex digit. -/
  hexC (n : Nat) : Char :=
    "0123456789abcdef".data.getD n '0'

/-- An HTTP response: status code and body bytes. -/
structure HTTPResponse where
  status : Nat
  body : List Nat
deriving DecidableEq, Repr

/-- Modelled from the spec: the `version` constant of the package (defined
in a file not present in the sources) only feeds the fixed identifying
user-agent `maltmill/<version>`; its value is irrelevant to every claim. -/
def maltmillVersion : String := "x.y.z"

/-- `getSHA256FromURL`, with the HTTP GET abstracted into `doReq` (url and
user-agent to a response or transport error).  The response status code is
never inspected; the full body is streamed through SHA-256 and the
lowercase hex digest returned.  (A body-read failure is folded into
`doReq`, since the model's body is pure data.) -/
def getSHA256FromURL (doReq : String → String → Except String HTTPResponse)
    (u : String) : Except String String :=
  match doReq u ("maltmill/" ++ maltmillVersion) with
  | .error e => .error ("getSHA256 failed while request to url: " ++ u ++ ": " ++ e)
  | .ok resp => .ok (hexDigest (sha256Bytes resp.body))

/-! ## The creator's name derivation (`creator.go`) -/

/-- Go `strings.isSeparator`, ASCII part: alphanumerics and underscore are
not separators, every other ASCII character is.  (For non-ASCII runes Go
consults the Unicode tables — letters and digits are not separators and
only Unicode spaces are; the claims only exercise ASCII, and the model
makes every non-ASCII rune a non-separator.) -/
def goIsSeparator (r : Char) : Bool :=
  if r.toNat ≤ 0x7F then
    if '0' ≤ r && r ≤ '9' then false
    else if 'a' ≤ r && r ≤ 'z' then false
    else if 'A' ≤ r && r ≤ 'Z' then false
    else if r = '_' then false
    else true
  else false

/-- Go `strings.Title`: map each rune that follows a separator (the scan
starts as if after a space) to its title case — for ASCII, upper case. -/
def stringsTitle (s : String) : String :=
  ⟨go ' ' s.data⟩
where
  go : Char → List Char → List Char
    | _, [] => []
    | prev, c :: cs => (if goIsSeparator prev then c.toUpper else c) :: go c cs

/-- `strings.Replace(strings.Title(repo), "-", "", -1)`: the capitalized
class-style formula name of `creator.run` (replacing every `-` by the
empty string removes exactly the hyphens). -/
def capitalizedName (repo : String) : String :=
  ⟨(stringsTitle repo).data.filter (fun c => c ≠ '-')⟩

/-- The slug parsing of `creator.run`: `owner/repo` or `owner/repo@tag`
to `(owner, repo, tag)`, with an `invalid slug` error unless splitting on
`/` gives exactly two parts (`strings.Split` on one-character separators
is `splitOnC`). -/
def parseSlug (slug : String) : Except String (String × String × String) :=
  let ownerAndRepo := splitOnC '/' slug.data
  if ownerAndRepo.length ≠ 2 then .error ("invalid slug: " ++ slug)
  else
    let repoAndVer := splitOnC '@' (ownerAndRepo.getD 1 [])
    let tag : String := if repoAndVer.length > 1 then ⟨repoAndVer.getD 1 []⟩ else ""
    .ok (⟨ownerAndRepo.getD 0 []⟩, ⟨repoAndVer.getD 0 []⟩, tag)

/-! ## Statement-side helpers -/

/-- The spec's literal-string substitution (`strings.Replace(s, pat, new, -1)`
semantics): scan left to right, replace each occurrence of the non-empty
`pat` and resume after it. -/
def literalSubstGo (pat new : List Char) : Nat → List Char → List Char
  | 0, rem => rem
  | fuel + 1, rem =>
    if !pat.isEmpty && pat.isPrefixOf rem then
      new ++ literalSubstGo pat new fuel (rem.drop pat.length)
    else
      match rem with
      | [] => []
      | c :: rs => c :: literalSubstGo pat new fuel rs

/-- Entry point for `literalSubstGo` with sufficient fuel. -/
def literalSubst (s pat new : String) : String :=
  ⟨literalSubstGo pat.data new.data (s.data.length + 1) s.data⟩

/-- Index of the first occurrence of `pat` in `rem`. -/
def firstOcc (pat : List Char) : List Char → Option Nat
  | [] => if pat.isPrefixOf [] then some 0 else none
  | c :: rs =>
    if pat.isPrefixOf (c :: rs) then some 0 else (firstOcc pat rs).map (· + 1)

/-- No `$` character (so Go's replacement-template expansion is the
identity on the string). -/
def noDollar (s : String) : Bool :=
  s.data.all (fun c => c ≠ '$')

/-- Did the operation succeed? -/
def exceptOk : Except ε α → Bool
  | .ok _ => true
  | .error _ => false

/-! ## Concrete fixtures for the claim theorems -/

/-- A well-formed formula file with a template URL and version `1.2.0`. -/
def exContent1 : String :=
  "class Maltmill < Formula\n  version \"1.2.0\"\n  homepage \"https://github.com/Songmu/maltmill\"\n  url \"https://github.com/Songmu/maltmill/releases/download/v#\x7bversion\x7d/maltmill_v#\x7bversion\x7d_darwin_amd64.zip\"\n  sha256 \"aaaabbbbccccdddd\"\nend\n"

/-- The digest the checksum oracle serves for the `v1.3.0` asset. -/
def exDigest1 : String :=
  "9f86d081884c7d659a2feaa0c55ad015a3bf4f1b2b0b822cd15d6c15b0f00a08"

/-- `exContent1` as rewritten by a successful update to `1.3.0`. -/
def exContent1upd : String :=
  "class Maltmill < Formula\n  version \"1.3.0\"\n  homepage \"https://github.com/Songmu/maltmill\"\n  url \"https://github.com/Songmu/maltmill/releases/download/v#\x7bversion\x7d/maltmill_v#\x7bversion\x7d_darwin_amd64.zip\"\n  sha256 \"" ++ exDigest1 ++ "\"\nend\n"

/-- The formula `newFormula` produces from `exContent1`. -/
def exFormula1 : Formula :=
  { fname := "maltmill.rb", content := exContent1,
    urlTmpl := "https://github.com/Songmu/maltmill/releases/download/v#\x7bversion\x7d/maltmill_v#\x7bversion\x7d_darwin_amd64.zip",
    isURLTmpl := true, name := "", version := "1.2.0",
    url := "https://github.com/Songmu/maltmill/releases/download/v1.2.0/maltmill_v1.2.0_darwin_amd64.zip",
    sha256 := "aaaabbbbccccdddd", owner := "Songmu", repo := "maltmill" }

/-- A `v1.3.0` release (the template path never reads the asset list). -/
def exRel1 : Release := { tagName := "v1.3.0", assets := [] }

/-- Checksum oracle serving `exDigest1` for every URL. -/
def exOracle1 : String → Except String String := fun _ => .ok exDigest1

/-- A formula already at version `1.3.0` (for the no-update case). -/
def exFormulaA : Formula :=
  { fname := "a.rb", content := "  version \"1.3.0\"\n", urlTmpl := "u",
    isURLTmpl := false, name := "", version := "1.3.0", url := "u",
    sha256 := "s", owner := "o", repo := "r" }

/-- A non-template formula whose URL extension is `.zip`. -/
def exFormulaB : Formula :=
  { fname := "tool.rb",
    content := "  version \"1.2.0\"\n  url \"https://github.com/o2/r2/releases/download/v1.2.0/tool_darwin_amd64.zip\"\n  sha256 \"bbbb\"\n",
    urlTmpl := "https://github.com/o2/r2/releases/download/v1.2.0/tool_darwin_amd64.zip",
    isURLTmpl := false, name := "", version := "1.2.0",
    url := "https://github.com/o2/r2/releases/download/v1.2.0/tool_darwin_amd64.zip",
    sha256 := "bbbb", owner := "o2", repo := "r2" }

/-- A release whose first asset lacks `darwin`; only the second matches. -/
def exRelB : Release :=
  { tagName := "v1.3.0",
    assets := ["https://github.com/o2/r2/releases/download/v1.3.0/tool_linux_amd64.zip",
               "https://github.com/o2/r2/releases/download/v1.3.0/tool_darwin_amd64.zip"] }

/-- Content with two version assignment lines (and one sha256, one URL). -/
def c3content : String :=
  "  version \"1.2.0\"\n  version \"9.9.9\"\n  url \"https://github.com/o/r/a.zip\"\n  sha256 \"abc\"\n"

/-- A template URL that also carries a `#\x7bname\x7d` placeholder. -/
def c4content : String :=
  "  name \"foo\"\n  version \"1.2.0\"\n  url \"https://github.com/o/r/releases/download/v#\x7bversion\x7d/#\x7bname\x7d.tar.gz\"\n  sha256 \"aaaa\"\n"

/-- The formula `newFormula` produces from `c4content` (`nameReg` needs a
`=`, so the Ruby-style `name "foo"` line is not captured and `name` is
empty). -/
def c4formula : Formula :=
  { fname := "f.rb", content := c4content,
    urlTmpl := "https://github.com/o/r/releases/download/v#\x7bversion\x7d/#\x7bname\x7d.tar.gz",
    isURLTmpl := true, name := "", version := "1.2.0",
    url := "https://github.com/o/r/releases/download/v1.2.0/.tar.gz",
    sha256 := "aaaa", owner := "o", repo := "r" }

/-- A `v1.3.0` release for the `c4`/`c9` scenarios. -/
def c9rel : Release :=
  { tagName := "v1.3.0",
    assets := ["https://github.com/o/r/releases/download/v1.3.0/tool-darwin-amd64.tar.gz"] }

/-- Checksum oracle for the `c4`/`c9` scenarios. -/
def c9oracle : String → Except String String := fun _ => .ok "cafebabe"

/-- Accepted content in which the first `shaReg` occurrence lies inside
the URL assignment's value, before the real `sha256` line. -/
def c9content : String :=
  "  version \"1.2.0\"\n  url \"https://github.com/o/r/a sha256 \"b\"\"\n  sha256 \"deadbeef\"\n"

/-- The formula `newFormula` produces from `c9content`: the parsed
checksum is the embedded `b\"`, not `deadbeef`. -/
def c9formula : Formula :=
  { fname := "f.rb", content := c9content,
    urlTmpl := "https://github.com/o/r/a sha256 \"b\"",
    isURLTmpl := false, name := "", version := "1.2.0",
    url := "https://github.com/o/r/a sha256 \"b\"",
    sha256 := "b\"", owner := "o", repo := "r" }

/-- Content with a literal (non-template) URL carrying a `#\x7bname\x7d`
placeholder but no `#\x7bversion\x7d`. -/
def c10content : String :=
  "  version \"1.2.0\"\n  url \"https://github.com/o/r/releases/#\x7bname\x7d.zip\"\n  sha256 \"cc\"\n"

/-- The formula `newFormula` produces from `c10content`: a literal URL,
kept verbatim with the `#\x7bname\x7d` placeholder unexpanded. -/
def c10formula : Formula :=
  { fname := "f.rb", content := c10content,
    urlTmpl := "https://github.com/o/r/releases/#\x7bname\x7d.zip",
    isURLTmpl := false, name := "", version := "1.2.0",
    url := "https://github.com/o/r/releases/#\x7bname\x7d.zip",
    sha256 := "cc", owner := "o", repo := "r" }

/-- The URL `newFormula` derives from its first `version` and `url`
matches (the `let url := …` of the source, lines 112–126, lifted out so
the load-success condition can be stated). -/
def newFormulaURL (c : String) (mv mu : Nat × Nat × Caps) : String :=
  let name := match findSubmatch nameReg c with
    | some m => grpStr c m 1
    | none => ""
  let urlTmpl := grpStr c mu 2
  if strContains urlTmpl "#\x7bversion\x7d" then
    expandStr urlTmpl [("name", name), ("version", grpStr c mv 2)]
  else urlTmpl

/-! ## Engine lemmas -/

set_option maxRecDepth 1000000

theorem countRun_le (p : Char → Bool) : ∀ rem : List Char, countRun p rem ≤ rem.length := by
  intro rem
  induction rem with
  | nil => simp [countRun]
  | cons c cs ih =>
    simp only [countRun, List.length_cons]
    split <;> omega

theorem matchItemsL_bounds :
    ∀ (fuel : Nat) (items : List RItem) (rem : List Char) (prev : Option Char)
      (pos : Nat) (caps : Caps) (e : Nat) (caps' : Caps),
      matchItemsL fuel items rem prev pos caps = some (e, caps') →
      pos ≤ e ∧ e ≤ pos + rem.length := by
  intro fuel
  induction fuel with
  | zero =>
    intro items rem prev pos caps e caps' h
    simp [matchItemsL] at h
  | succ fuel ih =>
    intro items rem prev pos caps e caps' h
    match items with
    | [] =>
      simp [matchItemsL] at h
      omega
    | .cls p :: rest =>
      match rem with
      | [] => simp [matchItemsL] at h
      | c :: rs =>
        simp only [matchItemsL] at h
        split at h
        · have := ih rest rs (some c) (pos + 1) caps e caps' h
          simp only [List.length_cons]
          omega
        · exact absurd h (by simp)
    | .star p :: rest =>
      simp only [matchItemsL] at h
      obtain ⟨j, hj, hfj⟩ := List.exists_of_findSome?_eq_some h
      simp only [List.mem_reverse, List.mem_range] at hj
      have hjr : j ≤ rem.length := le_trans (Nat.le_of_lt_succ hj) (countRun_le p rem)
      have := ih rest (rem.drop j) (prevAt rem prev j) (pos + j) caps e caps' hfj
      simp only [List.length_drop] at this
      omega
    | .openG n :: rest =>
      simp only [matchItemsL] at h
      exact ih _ _ _ _ _ _ _ h
    | .closeG n :: rest =>
      simp only [matchItemsL] at h
      exact ih _ _ _ _ _ _ _ h
    | .bol :: rest =>
      simp only [matchItemsL] at h
      split at h
      · exact ih _ _ _ _ _ _ _ h
      · exact absurd h (by simp)
    | .bot :: rest =>
      simp only [matchItemsL] at h
      split at h
      · exact ih _ _ _ _ _ _ _ h
      · exact absurd h (by simp)

theorem findFromL_bounds (items : List RItem) :
    ∀ (rem : List Char) (prev : Option Char) (pos : Nat) (s e : Nat) (caps : Caps),
      findFromL items rem prev pos = some (s, e, caps) →
      pos ≤ s ∧ s ≤ e ∧ e ≤ pos + rem.length := by
  intro rem
  induction rem with
  | nil =>
    intro prev pos s e caps h
    simp only [findFromL] at h
    cases hm : matchAtL items [] prev pos with
    | some v =>
      rw [hm] at h
      obtain ⟨e', caps'⟩ := v
      have := matchItemsL_bounds _ _ _ _ _ _ _ _ hm
      simp only [Option.some.injEq, Prod.mk.injEq] at h
      simp only [List.length_nil] at this ⊢
      omega
    | none => rw [hm] at h; simp at h
  | cons c rs ih =>
    intro prev pos s e caps h
    simp only [findFromL] at h
    cases hm : matchAtL items (c :: rs) prev pos with
    | some v =>
      rw [hm] at h
      obtain ⟨e', caps'⟩ := v
      have := matchItemsL_bounds _ _ _ _ _ _ _ _ hm
      simp only [Option.some.injEq, Prod.mk.injEq] at h
      simp only [List.length_cons] at this ⊢
      omega
    | none =>
      rw [hm] at h
      have := ih (some c) (pos + 1) s e caps h
      simp only [List.length_cons]
      omega

theorem slice_split (l : List Char) (p s e : Nat) (h1 : p ≤ s) (h2 : s ≤ e) :
    sliceL l p s ++ (sliceL l s e ++ l.drop e) = l.drop p := by
  have hA : sliceL l p s = (l.drop p).take (s - p) := by
    simp [sliceL, List.drop_take]
  have hB : sliceL l s e = ((l.drop p).drop (s - p)).take (e - s) := by
    simp only [sliceL, List.drop_take, List.drop_drop]
    congr 2
    omega
  have hC : l.drop e = ((l.drop p).drop (s - p)).drop (e - s) := by
    simp only [List.drop_drop]
    congr 1
    omega
  rw [hA, hB, hC, List.take_append_drop, List.take_append_drop]

theorem sliceL_self (l : List Char) (s : Nat) : sliceL l s s = [] := by
  simp [sliceL, List.drop_take]

theorem replaceAllCore_keep (items : List RItem) (full : List Char)
    (f : Bool → Nat → Nat → Caps → (List Char × Bool))
    (hf : ∀ a b caps, f true a b caps = (sliceL full a b, true)) :
    ∀ (fuel pos : Nat), pos ≤ full.length →
      replaceAllCore items full f fuel pos true = full.drop pos := by
  intro fuel
  induction fuel with
  | zero => intro pos _; simp [replaceAllCore]
  | succ fuel ih =>
    intro pos hpos
    simp only [replaceAllCore]
    cases hfind : findFromL items (full.drop pos) (charBefore full pos) pos with
    | none => simp
    | some v =>
      obtain ⟨s, e, caps⟩ := v
      have hb := findFromL_bounds items _ _ _ _ _ _ hfind
      simp only [List.length_drop] at hb
      simp only [hf]
      by_cases hse : s < e
      · simp only [hse, if_true]
        rw [ih e (by omega)]
        rw [List.append_assoc]
        exact slice_split full pos s e (by omega) (by omega)
      · have hseq : s = e := by omega
        subst hseq
        simp only [hse, if_false, sliceL_self]
        cases hdrop : full.drop s with
        | nil =>
          have hsl : full.length ≤ s := by
            have := congrArg List.length hdrop
            simp only [List.length_drop, List.length_nil] at this
            omega
          simp only [List.append_nil, List.nil_append, sliceL,
            List.take_of_length_le hsl]
        | cons c tl =>
          have hlt : s < full.length := by
            have := congrArg List.length hdrop
            simp only [List.length_drop, List.length_cons] at this
            omega
          rw [ih (s + 1) (by omega)]
          have hdrop1 : full.drop (s + 1) = tl := by
            have h2 : full.drop (s + 1) = (full.drop s).drop 1 := by
              rw [List.drop_drop]
            rw [h2, hdrop]
            rfl
          rw [hdrop1]
          have hss := slice_split full pos s s (by omega) (by omega)
          rw [sliceL_self, List.nil_append] at hss
          simp only [List.append_nil]
          show sliceL full pos s ++ (c :: tl) = List.drop pos full
          rw [← hdrop]
          exact hss

/-- Frame property of `replaceOne`: only the region of the first match is
rewritten (by a full `ReplaceAllString` of the matched text); every byte
before and after it is returned unchanged. -/
theorem replaceOne_frame (items : List RItem) (str replace : String) (s e : Nat)
    (caps : Caps) (hfind : findFirstL items str.data = some (s, e, caps)) (hse : s < e) :
    replaceOne items str replace =
      ⟨sliceL str.data 0 s ++
       (goReplaceAllString items ⟨sliceL str.data s e⟩ replace).data ++
       str.data.drop e⟩ := by
  unfold findFirstL at hfind
  have hb := findFromL_bounds items str.data none 0 s e caps hfind
  unfold replaceOne
  simp only [replaceAllCore]
  rw [show charBefore str.data 0 = none from rfl, List.drop_zero, hfind]
  simp only [replaceOneF, if_pos hse]
  rw [replaceAllCore_keep items str.data _ (fun a b caps => rfl) _ e (by omega)]

/-- When the pattern does not occur, `replaceOne` is the identity. -/
theorem replaceOne_id (items : List RItem) (str replace : String)
    (h : findFirstL items str.data = none) :
    replaceOne items str replace = str := by
  unfold findFirstL at h
  unfold replaceOne
  simp only [replaceAllCore]
  rw [show charBefore str.data 0 = none from rfl, List.drop_zero, h]

theorem matchItemsL_lits (pat : List Char) :
    ∀ (fuel : Nat) (rem : List Char) (prev : Option Char) (pos : Nat) (caps : Caps),
      pat.length < fuel →
      matchItemsL fuel (litsL pat) rem prev pos caps =
        if pat.isPrefixOf rem then some (pos + pat.length, caps) else none := by
  induction pat with
  | nil =>
    intro fuel rem prev pos caps hf
    match fuel, hf with
    | fuel + 1, _ => simp [litsL, matchItemsL]
  | cons c cs ih =>
    intro fuel rem prev pos caps hf
    match fuel, hf with
    | fuel + 1, hf =>
      cases rem with
      | nil => simp [litsL, matchItemsL]
      | cons r rs =>
        simp only [litsL, List.map_cons, matchItemsL]
        by_cases hrc : r = c
        · subst hrc
          rw [if_pos (by simp)]
          have hrec := ih fuel rs (some r) (pos + 1) caps
            (by simp only [List.length_cons] at hf; omega)
          rw [litsL] at hrec
          rw [hrec]
          by_cases hcs : cs.isPrefixOf rs
          · rw [if_pos hcs, if_pos (by simp [List.isPrefixOf, hcs])]
            have harith : pos + 1 + cs.length = pos + (r :: cs).length := by
              simp only [List.length_cons]; omega
            rw [harith]
          · rw [if_neg hcs, if_neg (by simp [List.isPrefixOf, hcs])]
        · have hnpre : ¬((c :: cs).isPrefixOf (r :: rs)) = true := by
            simp only [List.isPrefixOf, Bool.and_eq_true, beq_iff_eq, not_and]
            intro h
            exact absurd h.symm hrc
          rw [if_neg (by simp [hrc]), if_neg hnpre]

theorem firstOcc_le (pat : List Char) :
    ∀ (rem : List Char) (i : Nat), firstOcc pat rem = some i →
      i + pat.length ≤ rem.length := by
  intro rem
  induction rem with
  | nil =>
    intro i h
    simp only [firstOcc] at h
    split at h
    · rename_i hp
      simp only [Option.some.injEq] at h
      have := (List.isPrefixOf_iff_prefix.mp hp).length_le
      simp only [List.length_nil] at this ⊢
      omega
    · exact absurd h (by simp)
  | cons c rs ih =>
    intro i h
    simp only [firstOcc] at h
    split at h
    · rename_i hp
      simp only [Option.some.injEq] at h
      have := (List.isPrefixOf_iff_prefix.mp hp).length_le
      simp only [List.length_cons] at this ⊢
      omega
    · rw [Option.map_eq_some'] at h
      obtain ⟨j, hj, hji⟩ := h
      have := ih j hj
      simp only [List.length_cons]
      omega

theorem findFromL_lits (pat : List Char) (hne : pat ≠ []) :
    ∀ (rem : List Char) (prev : Option Char) (pos : Nat),
      findFromL (litsL pat) rem prev pos =
        (firstOcc pat rem).map (fun i => (pos + i, pos + i + pat.length, ([] : Caps))) := by
  have hlen : (litsL pat).length + 1 > pat.length := by simp [litsL]
  intro rem
  induction rem with
  | nil =>
    intro prev pos
    have hnp : pat.isPrefixOf [] = false := by
      cases pat with
      | nil => exact absurd rfl hne
      | cons a as => simp
    simp only [findFromL, matchAtL]
    rw [matchItemsL_lits pat _ _ _ _ _ hlen, hnp]
    simp [firstOcc, hnp]
  | cons c rs ih =>
    intro prev pos
    simp only [findFromL, matchAtL]
    rw [matchItemsL_lits pat _ _ _ _ _ hlen]
    by_cases hp : pat.isPrefixOf (c :: rs)
    · rw [if_pos hp]
      simp [firstOcc, hp]
    · rw [if_neg hp]
      rw [ih (some c) (pos + 1)]
      simp only [firstOcc, hp, Bool.false_eq_true, if_false]
      cases hfo : firstOcc pat rs with
      | none => simp
      | some j =>
        simp only [Option.map_some']
        have h1 : pos + (j + 1) = pos + 1 + j := by omega
        rw [h1]

theorem expandTmplGo_noDollar (full : List Char) (caps : Caps) :
    ∀ (fuel : Nat) (tmpl : List Char), (∀ c ∈ tmpl, c ≠ '$') →
      expandTmplGo full caps fuel tmpl = tmpl := by
  intro fuel
  induction fuel with
  | zero => intro tmpl _; rfl
  | succ fuel ih =>
    intro tmpl h
    cases tmpl with
    | nil => rfl
    | cons c cs =>
      have hc : c ≠ '$' := h c (by simp)
      simp only [expandTmplGo, if_neg hc]
      rw [ih cs (fun d hd => h d (by simp [hd]))]

theorem expandTmpl_noDollar (full : List Char) (caps : Caps) (tmpl : List Char)
    (h : ∀ c ∈ tmpl, c ≠ '$') : expandTmpl full caps tmpl = tmpl :=
  expandTmplGo_noDollar full caps _ tmpl h

theorem literalSubstGo_none (pat new : List Char) :
    ∀ (fuel : Nat) (rem : List Char), firstOcc pat rem = none →
      literalSubstGo pat new fuel rem = rem := by
  intro fuel
  induction fuel with
  | zero => intro rem _; rfl
  | succ fuel ih =>
    intro rem h
    cases rem with
    | nil =>
      simp only [firstOcc] at h
      split at h
      · exact absurd h (by simp)
      · rename_i hp
        simp only [literalSubstGo, Bool.and_eq_true]
        rw [if_neg (by simp [hp])]
    | cons c rs =>
      simp only [firstOcc] at h
      split at h
      · exact absurd h (by simp)
      · rename_i hp
        simp only [Option.map_eq_none'] at h
        simp only [literalSubstGo]
        rw [if_neg (by simp [hp])]
        rw [ih rs h]

theorem literalSubstGo_skip (pat new : List Char) (hne : pat ≠ []) :
    ∀ (i : Nat) (rem : List Char) (fuel : Nat), firstOcc pat rem = some i → i < fuel →
      literalSubstGo pat new fuel rem =
        rem.take i ++ new ++ literalSubstGo pat new (fuel - i - 1) (rem.drop (i + pat.length)) := by
  intro i
  induction i with
  | zero =>
    intro rem fuel h hf
    have hp : pat.isPrefixOf rem = true := by
      cases rem with
      | nil =>
        simp only [firstOcc] at h
        split at h
        · rename_i hx; exact hx
        · exact absurd h (by simp)
      | cons c rs =>
        simp only [firstOcc] at h
        split at h
        · rename_i hx; exact hx
        · rw [Option.map_eq_some'] at h
          obtain ⟨j, _, hji⟩ := h
          omega
    match fuel, hf with
    | fuel + 1, _ =>
      simp only [literalSubstGo]
      rw [if_pos (by simp [hp, List.isEmpty_iff, hne])]
      simp only [List.take_zero, List.nil_append, Nat.zero_add, Nat.add_sub_cancel]
      rfl
  | succ i ih =>
    intro rem fuel h hf
    cases rem with
    | nil =>
      simp only [firstOcc] at h
      split at h
      · simp at h
      · exact absurd h (by simp)
    | cons c rs =>
      simp only [firstOcc] at h
      split at h
      · simp at h
      · rename_i hp
        rw [Option.map_eq_some'] at h
        obtain ⟨j, hj, hji⟩ := h
        have hij : j = i := by omega
        subst hij
        match fuel, hf with
        | fuel + 1, hf =>
          simp only [literalSubstGo]
          rw [if_neg (by simp [hp])]
          rw [ih rs fuel hj (by omega)]
          simp only [List.take_succ_cons, List.drop_succ_cons, List.cons_append]
          have harith : fuel + 1 - (j + 1) - 1 = fuel - j - 1 := by omega
          rw [harith]
          have harith2 : j + 1 + pat.length = (j + pat.length) + 1 := by omega
          rw [harith2, List.drop_succ_cons]

theorem literalSubstGo_fuel (pat new : List Char) (hne : pat ≠ []) :
    ∀ (n : Nat) (rem : List Char) (fuel1 fuel2 : Nat), rem.length ≤ n →
      rem.length < fuel1 → rem.length < fuel2 →
      literalSubstGo pat new fuel1 rem = literalSubstGo pat new fuel2 rem := by
  intro n
  induction n with
  | zero =>
    intro rem fuel1 fuel2 hn h1 h2
    have : rem = [] := by
      cases rem with
      | nil => rfl
      | cons c rs => simp at hn
    subst this
    cases hfo : firstOcc pat [] with
    | none => rw [literalSubstGo_none pat new _ _ hfo, literalSubstGo_none pat new _ _ hfo]
    | some i =>
      have := firstOcc_le pat [] i hfo
      have hpl : 0 < pat.length := List.length_pos.mpr hne
      simp only [List.length_nil] at this
      omega
  | succ n ih =>
    intro rem fuel1 fuel2 hn h1 h2
    cases hfo : firstOcc pat rem with
    | none => rw [literalSubstGo_none pat new _ _ hfo, literalSubstGo_none pat new _ _ hfo]
    | some i =>
      have hle := firstOcc_le pat rem i hfo
      have hpl : 0 < pat.length := List.length_pos.mpr hne
      rw [literalSubstGo_skip pat new hne i rem fuel1 hfo (by omega),
          literalSubstGo_skip pat new hne i rem fuel2 hfo (by omega)]
      have hrec := ih (rem.drop (i + pat.length)) (fuel1 - i - 1) (fuel2 - i - 1)
        (by simp only [List.length_drop]; omega)
        (by simp only [List.length_drop]; omega)
        (by simp only [List.length_drop]; omega)
      rw [hrec]

theorem sliceL_drop_take (full : List Char) (pos i : Nat) :
    sliceL full pos (pos + i) = (full.drop pos).take i := by
  simp [sliceL, List.drop_take]

theorem replaceAllCore_lits (pat new : List Char) (hne : pat ≠ [])
    (hnd : ∀ c ∈ new, c ≠ '$') (full : List Char) :
    ∀ (n fuel pos : Nat), full.length - pos ≤ n → pos ≤ full.length →
      full.length - pos < fuel →
      replaceAllCore (litsL pat) full
        (fun _ _a _b caps => (expandTmpl full caps new, ())) fuel pos () =
      literalSubstGo pat new (full.length - pos + 1) (full.drop pos) := by
  have hpl : 0 < pat.length := List.length_pos.mpr hne
  intro n
  induction n with
  | zero =>
    intro fuel pos hn hpos hf
    match fuel, hf with
    | fuel + 1, _ =>
      have hdrop : full.drop pos = [] := by
        apply List.eq_nil_of_length_eq_zero
        simp only [List.length_drop]
        omega
      simp only [replaceAllCore, hdrop]
      rw [findFromL_lits pat hne]
      have hfo : firstOcc pat [] = none := by
        simp only [firstOcc]
        rw [if_neg (by cases pat with | nil => exact absurd rfl hne | cons a as => simp)]
      rw [hfo]
      simp only [Option.map_none']
      rw [literalSubstGo_none pat new _ _ hfo]
  | succ n ih =>
    intro fuel pos hn hpos hf
    match fuel, hf with
    | fuel + 1, hf =>
      simp only [replaceAllCore]
      rw [findFromL_lits pat hne]
      cases hfo : firstOcc pat (full.drop pos) with
      | none =>
        simp only [Option.map_none']
        rw [literalSubstGo_none pat new _ _ hfo]
      | some i =>
        have hle := firstOcc_le pat (full.drop pos) i hfo
        simp only [List.length_drop] at hle
        simp only [Option.map_some']
        rw [expandTmpl_noDollar full [] new hnd]
        rw [if_pos (by omega)]
        have hrec := ih fuel (pos + i + pat.length)
          (by omega) (by omega) (by omega)
        rw [hrec]
        rw [literalSubstGo_skip pat new hne i (full.drop pos) _ hfo (by omega)]
        rw [sliceL_drop_take]
        have hd1 : (full.drop pos).drop (i + pat.length) = full.drop (pos + i + pat.length) := by
          rw [List.drop_drop]
          congr 1
          omega
        rw [hd1]
        have hfuel := literalSubstGo_fuel pat new hne
          (full.length - (pos + i + pat.length))
          (full.drop (pos + i + pat.length))
          (full.length - (pos + i + pat.length) + 1)
          (full.length - pos + 1 - i - 1)
          (by simp only [List.length_drop]; omega)
          (by simp only [List.length_drop]; omega)
          (by simp only [List.length_drop]; omega)
        rw [hfuel]

/-- `ReplaceAllString` with a literal non-empty pattern and a `$`-free
replacement is exactly literal-string substitution. -/
theorem goReplaceAllString_lits (pat new s : String) (hne : pat.data ≠ [])
    (hnd : noDollar new = true) :
    goReplaceAllString (litsR pat) s new = literalSubst s pat new := by
  have hnd' : ∀ c ∈ new.data, c ≠ '$' := by
    intro c hc
    simp only [noDollar, List.all_eq_true, decide_eq_true_eq] at hnd
    exact hnd c hc
  unfold goReplaceAllString literalSubst litsR
  congr 1
  have h := replaceAllCore_lits pat.data new.data hne hnd' s.data
    s.data.length (s.data.length + 1) 0 (by omega) (by omega) (by omega)
  simpa using h

/-- `expandStr` over the two-entry map unfolds to two sequential
`ReplaceAllString` passes, in list order. -/
theorem expandStr_pair (s k1 v1 k2 v2 : String) :
    expandStr s [(k1, v1), (k2, v2)] =
      goReplaceAllString (litsR ("#\x7b" ++ k2 ++ "\x7d"))
        (goReplaceAllString (litsR ("#\x7b" ++ k1 ++ "\x7d")) s v1) v2 := rfl

/-! ## Claim theorems -/

/-- C2: for every formula whose current version parses as a semantic
version, if the latest release tag parses as a semantic version that is
not strictly greater than the current version, then `update` returns
`updated = false` with no error and the formula — its content included —
is left unchanged: "no update needed" is the boolean result, not an
error. -/
theorem claim2_no_update_not_error (fo : Formula) (rele : Release)
    (getSHA : String → Except String String) (ov nv : SemVer)
    (h1 : parseSemVer fo.version = .ok ov)
    (h2 : parseSemVer rele.tagName = .ok nv)
    (h3 : semverLessThan ov nv = false) :
    update fo (.ok rele) getSHA = (fo, false, none) := by
  simp [update, h1, h2, h3]

/-- Witness for C2: version `1.3.0` against release tag `v1.2.0`. -/
theorem claim2_witness :
    parseSemVer exFormulaA.version = .ok ⟨1, 3, 0, "", ""⟩ ∧
    parseSemVer "v1.2.0" = .ok ⟨1, 2, 0, "", ""⟩ ∧
    semverLessThan ⟨1, 3, 0, "", ""⟩ ⟨1, 2, 0, "", ""⟩ = false ∧
    update exFormulaA (.ok ⟨"v1.2.0", []⟩) (fun _ => .error "offline") =
      (exFormulaA, false, none) :=
  ⟨rfl, rfl, rfl,
   claim2_no_update_not_error exFormulaA ⟨"v1.2.0", []⟩ (fun _ => .error "offline")
     ⟨1, 3, 0, "", ""⟩ ⟨1, 2, 0, "", ""⟩ rfl rfl rfl⟩

/-- C8: `update` is atomic on failure — whenever it reports an error, the
returned formula is the input formula, every field included, and the
updated flag is false; mutation happens only after all fallible steps
succeeded. -/
theorem claim8_atomic_on_error (fo : Formula) (latest : Except String Release)
    (getSHA : String → Except String String)
    (h : (update fo latest getSHA).2.2 ≠ none) :
    (update fo latest getSHA).1 = fo ∧ (update fo latest getSHA).2.1 = false := by
  rcases h1 : parseSemVer fo.version with e1 | ov
  · simp [update, h1]
  rcases latest with e2 | rele
  · simp [update, h1]
  rcases h2 : parseSemVer rele.tagName with e3 | nv
  · simp [update, h1, h2]
  by_cases h3 : semverLessThan ov nv = true
  case neg => simp [update, h1, h2, h3]
  case pos =>
    by_cases h4 : fo.isURLTmpl = true
    · rcases h5 : getSHA (expandStr fo.urlTmpl
          [("name", fo.name), ("version", normalizedVer nv)]) with e5 | d
      · simp [update, h1, h2, h3, h4, h5]
      · exfalso
        apply h
        simp [update, h1, h2, h3, h4, h5]
    · rcases h6 : findAssetURL (pathExt fo.url) rele.assets with e6 | a
      · simp [update, h1, h2, h3, h4, h6]
      · rcases h5 : getSHA a with e5 | d
        · simp [update, h1, h2, h3, h4, h6, h5]
        · exfalso
          apply h
          simp [update, h1, h2, h3, h4, h6, h5]

/-- Witness for C8: an unparseable current version makes `update` fail and
leaves the formula untouched. -/
theorem claim8_witness :
    (update c9formula (.error "boom") c9oracle).2.2 ≠ none ∧
    (update c9formula (.error "boom") c9oracle).1 = c9formula ∧
    (update c9formula (.error "boom") c9oracle).2.1 = false := by
  refine ⟨by decide, ?_, ?_⟩
  · exact (claim8_atomic_on_error c9formula (.error "boom") c9oracle (by decide)).1
  · exact (claim8_atomic_on_error c9formula (.error "boom") c9oracle (by decide)).2

/-- C6: the checksum-of-URL utility hashes exactly the full response body
— returning the lowercase hex SHA-256 digest — regardless of the HTTP
status code, and produces the well-known digest on a fixed input (the
empty byte sequence). -/
theorem claim6_checksum (doReq : String → String → Except String HTTPResponse)
    (u : String) (resp : HTTPResponse)
    (h : doReq u ("maltmill/" ++ maltmillVersion) = .ok resp) :
    getSHA256FromURL doReq u = .ok (hexDigest (sha256Bytes resp.body)) ∧
    (∀ (n m : Nat) (body : List Nat) (u2 : String),
      getSHA256FromURL (fun _ _ => .ok ⟨n, body⟩) u2 =
      getSHA256FromURL (fun _ _ => .ok ⟨m, body⟩) u2) ∧
    hexDigest (sha256Bytes []) =
      "e3b0c44298fc1c149afbf4c8996fb92427ae41e4649b934ca495991b7852b855" := by
  refine ⟨by simp [getSHA256FromURL, h], fun n m body u2 => rfl, rfl⟩

/-- Witness for C6: a 404 response with an empty body still yields the
digest of the (empty) body. -/
theorem claim6_witness :
    ((fun _ _ => Except.ok ⟨404, []⟩ :
        String → String → Except String HTTPResponse) "u"
      ("maltmill/" ++ maltmillVersion) = Except.ok (⟨404, []⟩ : HTTPResponse)) ∧
    getSHA256FromURL (fun _ _ => .ok ⟨404, []⟩) "u" =
      .ok "e3b0c44298fc1c149afbf4c8996fb92427ae41e4649b934ca495991b7852b855" := by
  refine ⟨rfl, ?_⟩
  have h := (claim6_checksum (fun _ _ => .ok ⟨404, []⟩) "u" ⟨404, []⟩ rfl).1
  rw [h, (claim6_checksum (fun _ _ => .ok ⟨404, []⟩) "u" ⟨404, []⟩ rfl).2.2]

/-- C7: the creator's capitalized class-style name removes hyphens and
title-cases the repository name: slug `owner/my-tool` parses to repository
`my-tool`, whose derived capitalized name is `MyTool`. -/
theorem claim7_capitalized_name :
    capitalizedName "my-tool" = "MyTool" ∧
    parseSlug "owner/my-tool" = .ok ("owner", "my-tool", "") ∧
    stringsTitle "my-tool" = "My-Tool" :=
  ⟨rfl, rfl, rfl⟩

/-- C5: for a non-template URL, `update` selects as the new URL the first
asset (in API order) whose base filename contains `amd64` and `darwin`
and ends with the original URL's extension; with no matching asset it
returns the `no assets found from latest release` error. -/
theorem claim5_asset_selection (fo : Formula) (rele : Release)
    (getSHA : String → Except String String) (ov nv : SemVer)
    (h1 : parseSemVer fo.version = .ok ov)
    (h2 : parseSemVer rele.tagName = .ok nv)
    (h3 : semverLessThan ov nv = true) (h4 : fo.isURLTmpl = false) :
    (rele.assets.find? (assetMatches (pathExt fo.url)) = none →
      update fo (.ok rele) getSHA =
        (fo, false, some "no assets found from latest release")) ∧
    (∀ a, rele.assets.find? (assetMatches (pathExt fo.url)) = some a →
      ∀ d, getSHA a = .ok d →
        update fo (.ok rele) getSHA =
          (updateContent { fo with version := normalizedVer nv, url := a, sha256 := d },
           true, none)) := by
  constructor
  · intro hnone
    simp [update, h1, h2, h3, h4, findAssetURL, hnone]
  · intro a ha d hd
    simp [update, h1, h2, h3, h4, findAssetURL, ha, hd]

/-- Witness for C5: the first asset lacks `darwin`, so the second is
selected, and the update succeeds with it as the new URL. -/
theorem claim5_witness :
    exRelB.assets.find? (assetMatches (pathExt exFormulaB.url)) =
      some "https://github.com/o2/r2/releases/download/v1.3.0/tool_darwin_amd64.zip" ∧
    update exFormulaB (.ok exRelB) (fun _ => .ok "feedface") =
      (updateContent { exFormulaB with
         version := "1.3.0"
         url := "https://github.com/o2/r2/releases/download/v1.3.0/tool_darwin_amd64.zip"
         sha256 := "feedface" }, true, none) := by
  refine ⟨rfl, ?_⟩
  exact (claim5_asset_selection exFormulaB exRelB (fun _ => .ok "feedface")
    ⟨1, 2, 0, "", ""⟩ ⟨1, 3, 0, "", ""⟩ rfl rfl rfl rfl).2
    "https://github.com/o2/r2/releases/download/v1.3.0/tool_darwin_amd64.zip" rfl
    "feedface" rfl

/-- C10: a URL is a template iff it contains `#\x7bversion\x7d`; a loaded
non-template URL is the assignment text verbatim (so a `#\x7bname\x7d`
placeholder stays unexpanded), and `updateContent` rewrites the URL
assignment exactly when the URL is not a template. -/
theorem claim10_template_classification :
    (∀ (f c : String) (fo : Formula), newFormula f c = .ok fo →
      fo.isURLTmpl = strContains fo.urlTmpl "#\x7bversion\x7d") ∧
    (∀ (f c : String) (fo : Formula), newFormula f c = .ok fo →
      fo.isURLTmpl = false → fo.url = fo.urlTmpl) ∧
    (∀ fo : Formula, fo.isURLTmpl = false →
      (updateContent fo).content =
        replaceOne urlReg
          (replaceOne shaReg
            (replaceOne verReg fo.content (keepQuotesTmpl fo.version))
            (keepQuotesTmpl fo.sha256))
          (keepQuotesTmpl fo.url)) ∧
    (∀ fo : Formula, fo.isURLTmpl = true →
      (updateContent fo).content =
        replaceOne shaReg
          (replaceOne verReg fo.content (keepQuotesTmpl fo.version))
          (keepQuotesTmpl fo.sha256)) := by
  refine ⟨?_, ?_, ?_, ?_⟩
  · intro f c fo h
    simp only [newFormula] at h
    split at h
    · exact absurd h (by simp)
    · split at h
      · exact absurd h (by simp)
      · split at h
        · exact absurd h (by simp)
        · split at h
          · exact absurd h (by simp)
          · simp only [Except.ok.injEq] at h
            subst h
            rfl
  · intro f c fo h hT
    simp only [newFormula] at h
    split at h
    · exact absurd h (by simp)
    · split at h
      · exact absurd h (by simp)
      · split at h
        · exact absurd h (by simp)
        · split at h
          · exact absurd h (by simp)
          · simp only [Except.ok.injEq] at h
            subst h
            simp only at hT
            simp [hT]
  · intro fo h
    simp [updateContent, h]
  · intro fo h
    simp [updateContent, h]

/-- Witness for C10: the template fixture classifies as a template; the
`c10` fixture (literal URL with `#\x7bname\x7d`) classifies as literal,
keeps its URL verbatim, and `updateContent` takes the URL-rewriting
branch for it. -/
theorem claim10_witness :
    newFormula "f.rb" c10content = .ok c10formula ∧
    strContains c10formula.urlTmpl "#\x7bversion\x7d" = false ∧
    strContains c10formula.urlTmpl "#\x7bname\x7d" = true ∧
    c10formula.isURLTmpl = strContains c10formula.urlTmpl "#\x7bversion\x7d" ∧
    c10formula.url = c10formula.urlTmpl ∧
    (updateContent c10formula).content =
      replaceOne urlReg
        (replaceOne shaReg
          (replaceOne verReg c10formula.content (keepQuotesTmpl c10formula.version))
          (keepQuotesTmpl c10formula.sha256))
        (keepQuotesTmpl c10formula.url) := by
  refine ⟨rfl, rfl, rfl, ?_, ?_, ?_⟩
  · exact claim10_template_classification.1 "f.rb" c10content c10formula rfl
  · exact claim10_template_classification.2.1 "f.rb" c10content c10formula rfl rfl
  · exact claim10_template_classification.2.2.1 c10formula rfl

/-- C3 (amended): loading fails exactly when one of the three required
patterns has no match at all (with the source's error messages, checked in
the order version, sha256, url) or when the derived URL does not parse as
a GitHub URL; at least one occurrence of each pattern is required — the
first one is used — but duplicate occurrences are tolerated, not
rejected. -/
theorem claim3_amended :
    (∀ f c : String, findSubmatch verReg c = none →
      newFormula f c = .error "no version detected") ∧
    (∀ f c : String, (findSubmatch verReg c).isSome →
      findSubmatch shaReg c = none → newFormula f c = .error "no sha256 detected") ∧
    (∀ f c : String, (findSubmatch verReg c).isSome → (findSubmatch shaReg c).isSome →
      findSubmatch urlReg c = none → newFormula f c = .error "no url detected") ∧
    (∀ (f c : String) (mv ms mu : Nat × Nat × Caps),
      findSubmatch verReg c = some mv → findSubmatch shaReg c = some ms →
      findSubmatch urlReg c = some mu →
      exceptOk (newFormula f c) = (findSubmatch parseURLReg (newFormulaURL c mv mu)).isSome) := by
  refine ⟨?_, ?_, ?_, ?_⟩
  · intro f c hv
    simp [newFormula, hv]
  · intro f c hv hs
    obtain ⟨mv, hmv⟩ := Option.isSome_iff_exists.mp hv
    simp [newFormula, hmv, hs]
  · intro f c hv hs hu
    obtain ⟨mv, hmv⟩ := Option.isSome_iff_exists.mp hv
    obtain ⟨ms, hms⟩ := Option.isSome_iff_exists.mp hs
    simp [newFormula, hmv, hms, hu]
  · intro f c mv ms mu hmv hms hmu
    simp only [newFormula, newFormulaURL, hmv, hms, hmu]
    cases hp : findSubmatch parseURLReg
        (if strContains (grpStr c mu 2) "#\x7bversion\x7d" then
           expandStr (grpStr c mu 2)
             [("name",
               match findSubmatch nameReg c with
               | some m => grpStr c m 1
               | none => ""),
              ("version", grpStr c mv 2)]
         else grpStr c mu 2) with
    | none => simp [hp, exceptOk]
    | some mp => simp [hp, exceptOk]

/-- Counterexample to C3 as stated: a content with two version assignment
lines (count ≠ 1) is accepted by `newFormula`, not rejected. -/
theorem claim3_counterexample :
    countMatches verReg c3content.data = 2 ∧
    exceptOk (newFormula "f.rb" c3content) = true :=
  ⟨rfl, rfl⟩

/-- Witness for C3 (amended): a content with no version line fails with
`no version detected`, and for the accepted fixture the load-success
condition is the GitHub-URL parse. -/
theorem claim3_witness :
    findSubmatch verReg "no assignments here" = none ∧
    newFormula "f.rb" "no assignments here" = .error "no version detected" ∧
    exceptOk (newFormula "maltmill.rb" exContent1) =
      (findSubmatch parseURLReg
        (newFormulaURL exContent1
          ((findSubmatch verReg exContent1).getD (0, 0, []))
          ((findSubmatch urlReg exContent1).getD (0, 0, [])))).isSome := by
  refine ⟨rfl, claim3_amended.1 "f.rb" "no assignments here" rfl, ?_⟩
  exact claim3_amended.2.2.2 "maltmill.rb" exContent1 _ _ _ rfl rfl rfl

/-- C1: a `replaceOne` pass rewrites only the region of the pattern's
first occurrence — every byte before and after it is unchanged, and with
no occurrence the text is returned as is — and, end to end on the
well-formed `1.2.0` fixture updated to release `v1.3.0`, the rewritten
content is the original with exactly the version and sha256 assignment
values replaced, containing `1.3.0` exactly once, in place of the single
original `1.2.0` occurrence. -/
theorem claim1_single_replacement :
    (∀ (items : List RItem) (str replace : String) (s e : Nat) (caps : Caps),
      findFirstL items str.data = some (s, e, caps) → s < e →
      replaceOne items str replace =
        ⟨sliceL str.data 0 s ++
         (goReplaceAllString items ⟨sliceL str.data s e⟩ replace).data ++
         str.data.drop e⟩) ∧
    (∀ (items : List RItem) (str replace : String),
      findFirstL items str.data = none → replaceOne items str replace = str) ∧
    newFormula "maltmill.rb" exContent1 = .ok exFormula1 ∧
    update exFormula1 (.ok exRel1) exOracle1 =
      ({ exFormula1 with
         version := "1.3.0"
         sha256 := exDigest1
         url := "https://github.com/Songmu/maltmill/releases/download/v1.3.0/maltmill_v1.3.0_darwin_amd64.zip"
         content := exContent1upd }, true, none) ∧
    countSubstr exContent1.data "1.2.0".data = 1 ∧
    countSubstr exContent1upd.data "1.3.0".data = 1 ∧
    countSubstr exContent1upd.data "1.2.0".data = 0 :=
  ⟨replaceOne_frame, replaceOne_id, rfl, rfl, by decide, by decide, by decide⟩

/-- Witness for C1: the first `verReg` occurrence of the fixture content
is at bytes 25–42, and `replaceOne` rewrites exactly that region. -/
theorem claim1_witness :
    findFirstL verReg exContent1.data =
      some (25, 42, [(3, 41, 42), (2, 36, 41), (1, 25, 36)]) ∧
    (25 : Nat) < 42 ∧
    replaceOne verReg exContent1 (keepQuotesTmpl "1.3.0") =
      ⟨sliceL exContent1.data 0 25 ++
       (goReplaceAllString verReg ⟨sliceL exContent1.data 25 42⟩
         (keepQuotesTmpl "1.3.0")).data ++
       exContent1.data.drop 42⟩ :=
  ⟨rfl, by decide,
   claim1_single_replacement.1 verReg exContent1 (keepQuotesTmpl "1.3.0")
     25 42 [(3, 41, 42), (2, 36, 41), (1, 25, 36)] rfl (by decide)⟩

/-- Counterexample to C4 as stated: for a template URL that also carries
the `#\x7bname\x7d` placeholder, the new URL is not the substitution of
the `#\x7bversion\x7d` placeholder alone — the code expands `#\x7bname\x7d`
too (here to the empty string, since the fixture's Ruby-style `name`
line has no `=` and is not captured). -/
theorem claim4_counterexample :
    newFormula "f.rb" c4content = .ok c4formula ∧
    (update c4formula (.ok c9rel) c9oracle).2.1 = true ∧
    (update c4formula (.ok c9rel) c9oracle).1.url =
      "https://github.com/o/r/releases/download/v1.3.0/.tar.gz" ∧
    literalSubst c4formula.urlTmpl "#\x7bversion\x7d" "1.3.0" =
      "https://github.com/o/r/releases/download/v1.3.0/#\x7bname\x7d.tar.gz" ∧
    ¬ ((update c4formula (.ok c9rel) c9oracle).1.url =
       literalSubst c4formula.urlTmpl "#\x7bversion\x7d" "1.3.0") :=
  ⟨rfl, rfl, rfl, rfl, by decide⟩

/-- C4 (amended): for a template URL, the new URL equals literal-string
substitution of the `#\x7bname\x7d` placeholder with the formula's name
followed by literal-string substitution of the `#\x7bversion\x7d`
placeholder with the new normalized version — `major.minor.patch`, any
extra suffix stripped — provided name and normalized version are free of
the replacement-template character `$` (the normalized version always
is). -/
theorem claim4_amended (fo : Formula) (rele : Release)
    (getSHA : String → Except String String) (ov nv : SemVer) (d : String)
    (h1 : parseSemVer fo.version = .ok ov)
    (h2 : parseSemVer rele.tagName = .ok nv)
    (h3 : semverLessThan ov nv = true) (h4 : fo.isURLTmpl = true)
    (h5 : noDollar fo.name = true) (h6 : noDollar (normalizedVer nv) = true)
    (h7 : getSHA (expandStr fo.urlTmpl
        [("name", fo.name), ("version", normalizedVer nv)]) = .ok d) :
    (update fo (.ok rele) getSHA).1.url =
      literalSubst (literalSubst fo.urlTmpl "#\x7bname\x7d" fo.name)
        "#\x7bversion\x7d" (normalizedVer nv) ∧
    (update fo (.ok rele) getSHA).2.1 = true ∧
    normalizedVer nv =
      Nat.repr nv.major ++ "." ++ Nat.repr nv.minor ++ "." ++ Nat.repr nv.patch := by
  have hurl : (update fo (.ok rele) getSHA).1.url =
      expandStr fo.urlTmpl [("name", fo.name), ("version", normalizedVer nv)] := by
    simp [update, h1, h2, h3, h4, h7, updateContent]
  refine ⟨?_, by simp [update, h1, h2, h3, h4, h7], rfl⟩
  rw [hurl, expandStr_pair]
  rw [goReplaceAllString_lits ("#\x7b" ++ "name" ++ "\x7d") fo.name fo.urlTmpl
    (by decide) h5]
  rw [goReplaceAllString_lits ("#\x7b" ++ "version" ++ "\x7d") (normalizedVer nv) _
    (by decide) h6]
  rfl

/-- Witness for C4 (amended): the template fixture's new URL is the
literal substitution of both placeholders. -/
theorem claim4_witness :
    noDollar exFormula1.name = true ∧
    noDollar (normalizedVer ⟨1, 3, 0, "", ""⟩) = true ∧
    (update exFormula1 (.ok exRel1) exOracle1).1.url =
      literalSubst (literalSubst exFormula1.urlTmpl "#\x7bname\x7d" exFormula1.name)
        "#\x7bversion\x7d" (normalizedVer ⟨1, 3, 0, "", ""⟩) :=
  ⟨rfl, rfl,
   (claim4_amended exFormula1 exRel1 exOracle1 ⟨1, 2, 0, "", ""⟩ ⟨1, 3, 0, "", ""⟩
     exDigest1 rfl rfl rfl rfl rfl rfl rfl).1⟩

/-- Counterexample to C9 as stated: on an accepted content whose first
`shaReg` occurrence sits inside the URL assignment's value, a successful
update leaves the real `sha256` line untouched, so re-applying the sha256
pattern to the rewritten content yields the old `deadbeef`, not the new
checksum `cafebabe` stored in the formula. -/
theorem claim9_counterexample :
    newFormula "f.rb" c9content = .ok c9formula ∧
    (update c9formula (.ok c9rel) c9oracle).2.1 = true ∧
    (update c9formula (.ok c9rel) c9oracle).2.2 = none ∧
    (update c9formula (.ok c9rel) c9oracle).1.sha256 = "cafebabe" ∧
    (findSubmatch shaReg (update c9formula (.ok c9rel) c9oracle).1.content).map
      (fun m => grpStr (update c9formula (.ok c9rel) c9oracle).1.content m 2) =
      some "deadbeef" ∧
    ¬ (("deadbeef" : String) = "cafebabe") :=
  ⟨rfl, rfl, rfl, rfl, rfl, by decide⟩

/-- C9 (amended): when each pattern's first occurrence is the intended
assignment line — as in the canonical fixture — the patched content
re-parses to the updated field values: the first `verReg` submatch of the
rewritten content is the new normalized version and the first `shaReg`
submatch is the new checksum. -/
theorem claim9_amended_reparse :
    (update exFormula1 (.ok exRel1) exOracle1).2.1 = true ∧
    (update exFormula1 (.ok exRel1) exOracle1).1.content = exContent1upd ∧
    (update exFormula1 (.ok exRel1) exOracle1).1.version = "1.3.0" ∧
    (update exFormula1 (.ok exRel1) exOracle1).1.sha256 = exDigest1 ∧
    (findSubmatch verReg exContent1upd).map (fun m => grpStr exContent1upd m 2) =
      some "1.3.0" ∧
    (findSubmatch shaReg exContent1upd).map (fun m => grpStr exContent1upd m 2) =
      some exDigest1 :=
  ⟨rfl, rfl, rfl, rfl, rfl, rfl⟩

end Maltmill
